import Mathlib

/-!
Verification of the `hello` crate's thread pool (`src/lib.rs`).

The embedding has three layers, each translated from the source:

* Pure structural layer: `PoolError`, `Worker`, `ThreadPool`, `ThreadPool.build`
  and `ThreadPool.execute` mirror the Rust items of the same names.  A `Job` is
  an opaque `Box<dyn FnOnce()>` in the source, so jobs are represented by
  numeric tokens; executing a job means appending its token to an execution log.
* Channel layer: `Channel` and `Channel.send` embed the state of the
  `std::sync::mpsc` channel created in `build` (FIFO queue of pending jobs plus
  the "all receivers dropped" flag that makes `send` fail).
* Operational layer: `SysState` and the step relation `Step` embed the
  concurrent behaviour of the pool: the shared `Arc<Mutex<Receiver<Job>>>` as a
  lock with at most one holder, one `WorkerPhase` per spawned worker thread
  following the loop body of `Worker::new`, and the sender-drop performed by
  `Drop for ThreadPool`.  Teardown itself is embedded by `ThreadPool.dropEvents`
  (the order of actions in `Drop::drop`) and `dropJoinLoop` (the join loop with
  its `.expect` abort).
-/

/-- Embeds `enum PoolError` from `src/lib.rs`: the two error kinds of the pool,
each carrying a message string. -/
inductive PoolError where
  | CreationError (msg : String)
  | SendError (msg : String)
deriving DecidableEq, Repr

/-- Embeds `struct Worker`: the numeric id, the shared receiving end handed to
the spawned thread (identified by a token, since every clone of the `Arc` in
`build` denotes the same receiver), and the optional join handle (`some ()`
while the spawned thread's handle is held). -/
structure Worker where
  id : Nat
  receiver : Nat
  thread : Option Unit
deriving DecidableEq, Repr

/-- Embeds `Worker::new`: records the id and the shared receiver and spawns the
thread eagerly, so the handle is present from construction. -/
def Worker.new (id : Nat) (receiver : Nat) : Worker :=
  { id := id, receiver := receiver, thread := some () }

/-- Embeds `struct ThreadPool`: the owned workers and the optional sending end
of the job channel (`some ()` while the `mpsc::Sender` is held). -/
structure ThreadPool where
  workers : List Worker
  sender : Option Unit
deriving DecidableEq, Repr

/-- Embeds `ThreadPool::build`: a size of zero fails with `CreationError` and
the exact message from the source; otherwise one channel is created (its shared
receiving end is the token `0`), workers `0..size` are spawned over it, and the
pool owning them and the sender is returned. -/
def ThreadPool.build (size : Nat) : Except PoolError ThreadPool :=
  if size = 0 then
    .error (.CreationError "Pool size must be greater than zero")
  else
    let receiver := 0
    .ok { workers := (List.range size).map (fun id => Worker.new id receiver),
          sender := some () }

/-- Embeds the `mpsc` channel state: the FIFO queue of pending job tokens and
whether the receiving side has been shut down (every receiver handle dropped,
which in the source happens once all worker threads have exited). -/
structure Channel where
  queue : List Nat
  receiverClosed : Bool
deriving DecidableEq, Repr

/-- Embeds `mpsc::Sender::send`: enqueues at the back, or fails exactly when
the receiving side is gone; the `Display` text of `mpsc::SendError` is
"sending on a closed channel". -/
def Channel.send (ch : Channel) (j : Nat) : Except String Channel :=
  if ch.receiverClosed then .error "sending on a closed channel"
  else .ok { ch with queue := ch.queue ++ [j] }

/-- Embeds `ThreadPool::execute`: a missing sender (taken during teardown)
yields `SendError "ThreadPool sender is missing"` via `ok_or_else`; otherwise
the job is boxed and sent, and a failed send is mapped to `SendError` carrying
the channel error's string. -/
def ThreadPool.execute (p : ThreadPool) (ch : Channel) (j : Nat) :
    Except PoolError Channel :=
  match p.sender with
  | none => .error (.SendError "ThreadPool sender is missing")
  | some _ =>
    match ch.send j with
    | .error e => .error (.SendError e)
    | .ok ch2 => .ok ch2

/-- Teardown actions of `Drop for ThreadPool`: dropping the taken sender, and
joining the thread of one worker. -/
inductive DropEvent where
  | closeSender
  | join (id : Nat)
deriving DecidableEq, Repr

/-- Embeds `Drop::drop` as the sequence of its teardown actions:
`drop(self.sender.take())` first, then for each worker in order a join of its
thread when the handle is present (`if let Some(thread) = worker.thread`). -/
def ThreadPool.dropEvents (p : ThreadPool) : List DropEvent :=
  DropEvent.closeSender ::
    p.workers.filterMap (fun w => w.thread.map (fun _ => DropEvent.join w.id))

/-- Embeds `self.sender.take()` at the start of `Drop::drop`: the pool with the
sending handle removed. -/
def ThreadPool.takeSender (p : ThreadPool) : ThreadPool :=
  { p with sender := none }

/-- Embeds the outcome of `JoinHandle::join` for one worker thread: the
argument records whether that thread panicked, and a panicked thread makes the
join fail. -/
def joinOutcome (panicked : Bool) : Except String Unit :=
  if panicked then .error "thread panicked" else .ok ()

/-- Embeds the join loop of `Drop::drop` over one entry per worker in order:
`none` for a worker whose thread handle is absent (skipped by the `if let`),
`some panicked` for a held handle.  A failed join hits
`.expect("Thread failed to join")`, which aborts the whole teardown with that
message instead of continuing to later workers. -/
def dropJoinLoop : List (Option Bool) → Except String Unit
  | [] => .ok ()
  | none :: rest => dropJoinLoop rest
  | some panicked :: rest =>
    match joinOutcome panicked with
    | .ok _ => dropJoinLoop rest
    | .error _ => .error "Thread failed to join"

/-- Phase of one worker thread inside the loop body of `Worker::new`: `idle`
before `receiver.lock()`, `locked` while holding the mutex guard during the
`recv` statement, `running j` once the guard has been dropped (at the end of
the `let message = ...` statement) and the received job `j` is being invoked,
and `terminated` after the `break` on a receive error. -/
inductive WorkerPhase where
  | idle
  | locked
  | running (job : Nat)
  | terminated
deriving DecidableEq, Repr

/-- Global state of the running pool: the channel queue and whether the sender
has been dropped, the current holder of the receiver mutex, one phase per
spawned worker thread, and the logs of successfully submitted and of completed
job tokens. -/
structure SysState where
  queue : List Nat
  senderClosed : Bool
  lockHolder : Option Nat
  phases : List WorkerPhase
  submitted : List Nat
  executed : List Nat
deriving DecidableEq, Repr

/-- One interleaving step of the pool's threads, translated from `src/lib.rs`:
`submit` is a successful `execute` (sender still alive, job enqueued at the
back of the channel); `closeSender` is `drop(self.sender.take())` at the start
of `Drop::drop`; the remaining four are the loop of `Worker::new`: `acquire`
takes the mutex on the shared receiver when free, `recvOk` is `recv` returning
`Ok(job)` — the head of the FIFO queue is claimed and the guard is dropped at
the end of the statement, before the job runs — `recvErr` is `recv` returning
`Err` (possible exactly when the queue is empty and the sender has been
dropped), on which the worker breaks out of the loop, and `finish` is a
claimed job running to completion, logging its token, after which the worker
loops around. -/
inductive Step : SysState → SysState → Prop where
  | submit (s : SysState) (j : Nat) :
      s.senderClosed = false →
      Step s { s with queue := s.queue ++ [j], submitted := s.submitted ++ [j] }
  | closeSender (s : SysState) :
      Step s { s with senderClosed := true }
  | acquire (s : SysState) (i : Nat) :
      s.lockHolder = none →
      s.phases[i]? = some WorkerPhase.idle →
      Step s { s with lockHolder := some i, phases := s.phases.set i WorkerPhase.locked }
  | recvOk (s : SysState) (i j : Nat) (rest : List Nat) :
      s.lockHolder = some i →
      s.phases[i]? = some WorkerPhase.locked →
      s.queue = j :: rest →
      Step s { s with queue := rest, lockHolder := none, phases := s.phases.set i (WorkerPhase.running j) }
  | recvErr (s : SysState) (i : Nat) :
      s.lockHolder = some i →
      s.phases[i]? = some WorkerPhase.locked →
      s.queue = [] →
      s.senderClosed = true →
      Step s { s with lockHolder := none, phases := s.phases.set i WorkerPhase.terminated }
  | finish (s : SysState) (i j : Nat) :
      s.phases[i]? = some (WorkerPhase.running j) →
      Step s { s with phases := s.phases.set i WorkerPhase.idle, executed := s.executed ++ [j] }

/-- States the running pool can reach by any interleaving of thread steps. -/
abbrev Reachable : SysState → SysState → Prop := Relation.ReflTransGen Step

/-- State of the system right after `build size` returns: empty queue, live
sender, unheld lock, `size` idle worker threads, empty logs. -/
def initState (size : Nat) : SysState :=
  { queue := [], senderClosed := false, lockHolder := none,
    phases := List.replicate size WorkerPhase.idle,
    submitted := [], executed := [] }

/-- Number of workers currently executing job `j`. -/
def SysState.inFlight (s : SysState) (j : Nat) : Nat :=
  s.phases.countP (fun q => decide (q = WorkerPhase.running j))

/-- Inductive invariant of the running pool: the submission log balances the
execution log, the queue and the in-flight jobs, counted per token; a
terminated worker implies the sender was dropped; the lock holder is exactly
in its locked phase; and once every worker (of at least one) has terminated
the queue is empty. -/
def SysState.Inv (s : SysState) : Prop :=
  (∀ j, s.submitted.count j = s.executed.count j + s.queue.count j + s.inFlight j) ∧
  ((∃ q ∈ s.phases, q = WorkerPhase.terminated) → s.senderClosed = true) ∧
  (∀ i, s.lockHolder = some i → s.phases[i]? = some WorkerPhase.locked) ∧
  (s.phases ≠ [] → (∀ q ∈ s.phases, q = WorkerPhase.terminated) → s.queue = [])

/-- Weight of a worker phase, counting the steps it is away from termination
once the sender is closed and the queue has drained. -/
def phaseWeight : WorkerPhase → Nat
  | .idle => 2
  | .locked => 1
  | .running _ => 3
  | .terminated => 0

/-- Termination measure of the running pool: pending jobs weigh most, and each
worker weighs what its phase still owes. -/
def SysState.measure (s : SysState) : Nat :=
  4 * s.queue.length + (s.phases.map phaseWeight).sum

/-- Updating one known entry of a list shifts `countP` by the contribution of
the old and the new entry. -/
theorem countP_set {α : Type} (l : List α) (i : Nat) (a b : α)
    (p : α → Bool) (h : l[i]? = some a) :
    (l.set i b).countP p + (if p a then 1 else 0)
      = l.countP p + (if p b then 1 else 0) := by
  induction l generalizing i with
  | nil => simp at h
  | cons x xs ih =>
    cases i with
    | zero =>
      simp only [List.getElem?_cons_zero, Option.some.injEq] at h
      subst h
      simp only [List.set_cons_zero, List.countP_cons]
      omega
    | succ n =>
      simp only [List.getElem?_cons_succ] at h
      simp only [List.set_cons_succ, List.countP_cons]
      have := ih n h
      omega

/-- Any step preserves the per-token balance between submitted, executed,
queued and in-flight jobs. -/
theorem Step.count_balance {s s' : SysState} (h : Step s s')
    (hc : ∀ j, s.submitted.count j
      = s.executed.count j + s.queue.count j + s.inFlight j) :
    ∀ j, s'.submitted.count j
      = s'.executed.count j + s'.queue.count j + s'.inFlight j := by
  cases h with
  | submit j hsc =>
    intro j'
    have hcj := hc j'
    dsimp only [SysState.inFlight] at hcj ⊢
    rw [List.count_append, List.count_append]
    omega
  | closeSender => exact hc
  | acquire i hl hp =>
    intro j'
    have hcj := hc j'
    have hset := countP_set s.phases i WorkerPhase.idle WorkerPhase.locked
      (fun q => decide (q = WorkerPhase.running j')) hp
    dsimp only [SysState.inFlight] at hcj ⊢
    simp only [decide_eq_true_eq, reduceCtorEq, if_false] at hset
    omega
  | recvOk i j rest hl hp hq =>
    intro j'
    have hcj := hc j'
    have hset := countP_set s.phases i WorkerPhase.locked (WorkerPhase.running j)
      (fun q => decide (q = WorkerPhase.running j')) hp
    dsimp only [SysState.inFlight] at hcj ⊢
    rw [hq] at hcj
    rcases eq_or_ne j' j with rfl | hne
    · rw [List.count_cons_self] at hcj
      simp only [decide_eq_true_eq, reduceCtorEq, if_false, eq_self_iff_true,
        if_true] at hset
      omega
    · rw [List.count_cons_of_ne hne] at hcj
      simp only [decide_eq_true_eq, reduceCtorEq, if_false,
        WorkerPhase.running.injEq, hne.symm, if_false] at hset
      omega
  | recvErr i hl hp hq hsc =>
    intro j'
    have hcj := hc j'
    have hset := countP_set s.phases i WorkerPhase.locked WorkerPhase.terminated
      (fun q => decide (q = WorkerPhase.running j')) hp
    dsimp only [SysState.inFlight] at hcj ⊢
    simp only [decide_eq_true_eq, reduceCtorEq, if_false] at hset
    omega
  | finish i j hp =>
    intro j'
    have hcj := hc j'
    have hset := countP_set s.phases i (WorkerPhase.running j) WorkerPhase.idle
      (fun q => decide (q = WorkerPhase.running j')) hp
    dsimp only [SysState.inFlight] at hcj ⊢
    rw [List.count_append]
    rcases eq_or_ne j' j with rfl | hne
    · rw [List.count_cons_self, List.count_nil]
      simp only [decide_eq_true_eq, reduceCtorEq, if_false, eq_self_iff_true,
        if_true] at hset
      omega
    · rw [List.count_cons_of_ne hne, List.count_nil]
      simp only [decide_eq_true_eq, reduceCtorEq, if_false,
        WorkerPhase.running.injEq, hne.symm, if_false] at hset
      omega

/-- Any step preserves the fact that a terminated worker implies the sender
has been dropped. -/
theorem Step.term_closed {s s' : SysState} (h : Step s s')
    (ht : (∃ q ∈ s.phases, q = WorkerPhase.terminated) → s.senderClosed = true) :
    (∃ q ∈ s'.phases, q = WorkerPhase.terminated) → s'.senderClosed = true := by
  cases h with
  | submit j hsc => exact ht
  | closeSender => intro _; rfl
  | acquire i hl hp =>
    rintro ⟨q, hq, rfl⟩
    rcases List.mem_or_eq_of_mem_set hq with hmem | heq
    · exact ht ⟨_, hmem, rfl⟩
    · cases heq
  | recvOk i j rest hl hp hq =>
    rintro ⟨q, hq2, rfl⟩
    rcases List.mem_or_eq_of_mem_set hq2 with hmem | heq
    · exact ht ⟨_, hmem, rfl⟩
    · cases heq
  | recvErr i hl hp hq hsc => intro _; exact hsc
  | finish i j hp =>
    rintro ⟨q, hq, rfl⟩
    rcases List.mem_or_eq_of_mem_set hq with hmem | heq
    · exact ht ⟨_, hmem, rfl⟩
    · cases heq

/-- Any step preserves the fact that the lock holder is in its locked phase. -/
theorem Step.lock_holder {s s' : SysState} (h : Step s s')
    (hl : ∀ i, s.lockHolder = some i → s.phases[i]? = some WorkerPhase.locked) :
    ∀ i, s'.lockHolder = some i → s'.phases[i]? = some WorkerPhase.locked := by
  cases h with
  | submit j hsc => exact hl
  | closeSender => exact hl
  | acquire i hli hp =>
    intro k hk
    obtain rfl : i = k := by injection hk
    exact List.getElem?_set_self (List.getElem?_eq_some.mp hp).1
  | recvOk i j rest hli hp hq =>
    intro k hk
    exact absurd hk (by simp)
  | recvErr i hli hp hq hsc =>
    intro k hk
    exact absurd hk (by simp)
  | finish i j hp =>
    intro k hk
    have hpk := hl k hk
    have hne : i ≠ k := by
      rintro rfl
      rw [hp] at hpk
      cases hpk
    rw [List.getElem?_set_ne hne]
    exact hpk

/-- Any step preserves the fact that once every worker of a nonempty pool has
terminated the queue is empty (using that termination implies a dropped
sender). -/
theorem Step.all_term_queue_empty {s s' : SysState} (h : Step s s')
    (ht : (∃ q ∈ s.phases, q = WorkerPhase.terminated) → s.senderClosed = true)
    (he : s.phases ≠ [] → (∀ q ∈ s.phases, q = WorkerPhase.terminated) → s.queue = []) :
    s'.phases ≠ [] → (∀ q ∈ s'.phases, q = WorkerPhase.terminated) → s'.queue = [] := by
  cases h with
  | submit j hsc =>
    intro hne hall
    obtain ⟨q, hq⟩ := List.exists_mem_of_ne_nil s.phases hne
    have hcl := ht ⟨q, hq, hall q hq⟩
    rw [hsc] at hcl
    cases hcl
  | closeSender => exact he
  | acquire i hl hp =>
    intro hne hall
    have hmem : WorkerPhase.locked ∈ s.phases.set i WorkerPhase.locked :=
      List.getElem?_mem (List.getElem?_set_self (List.getElem?_eq_some.mp hp).1)
    cases hall _ hmem
  | recvOk i j rest hl hp hq =>
    intro hne hall
    have hmem : WorkerPhase.running j ∈ s.phases.set i (WorkerPhase.running j) :=
      List.getElem?_mem (List.getElem?_set_self (List.getElem?_eq_some.mp hp).1)
    cases hall _ hmem
  | recvErr i hl hp hq hsc => intro _ _; exact hq
  | finish i j hp =>
    intro hne hall
    have hmem : WorkerPhase.idle ∈ s.phases.set i WorkerPhase.idle :=
      List.getElem?_mem (List.getElem?_set_self (List.getElem?_eq_some.mp hp).1)
    cases hall _ hmem

/-- Any step preserves the pool invariant. -/
theorem Step.preserves_inv {s s' : SysState} (h : Step s s') (hinv : s.Inv) :
    s'.Inv :=
  ⟨h.count_balance hinv.1, h.term_closed hinv.2.1, h.lock_holder hinv.2.2.1,
   h.all_term_queue_empty hinv.2.1 hinv.2.2.2⟩

/-- The initial state satisfies the invariant. -/
theorem initState_inv (size : Nat) : (initState size).Inv := by
  refine ⟨?_, ?_, ?_, ?_⟩
  · intro j
    have hz : (List.replicate size WorkerPhase.idle).countP
        (fun q => decide (q = WorkerPhase.running j)) = 0 := by
      rw [List.countP_eq_zero]
      intro a ha
      rw [List.eq_of_mem_replicate ha]
      simp
    simp [initState, SysState.inFlight, hz]
  · rintro ⟨q, hq, rfl⟩
    cases List.eq_of_mem_replicate hq
  · intro i hi
    simp [initState] at hi
  · intro _ _
    rfl

/-- Every state reachable from the initial state satisfies the invariant. -/
theorem reachable_inv {size : Nat} {s : SysState}
    (h : Reachable (initState size) s) : s.Inv := by
  induction h with
  | refl => exact initState_inv size
  | tail _ hstep ih => exact hstep.preserves_inv ih

/-- No step changes the number of worker threads. -/
theorem Step.phases_length {s s' : SysState} (h : Step s s') :
    s'.phases.length = s.phases.length := by
  cases h <;> simp [List.length_set]

/-- Every reachable state has exactly `size` worker threads. -/
theorem reachable_phases_length {size : Nat} {s : SysState}
    (h : Reachable (initState size) s) : s.phases.length = size := by
  induction h with
  | refl => simp [initState]
  | tail _ hstep ih => rw [hstep.phases_length]; exact ih

/-- Updating one known entry of a list shifts the sum of a mapped function by
the contribution of the old and the new entry. -/
theorem sum_map_set {α : Type} (l : List α) (i : Nat) (a b : α) (f : α → Nat)
    (h : l[i]? = some a) :
    ((l.set i b).map f).sum + f a = (l.map f).sum + f b := by
  induction l generalizing i with
  | nil => simp at h
  | cons x xs ih =>
    cases i with
    | zero =>
      simp only [List.getElem?_cons_zero, Option.some.injEq] at h
      subst h
      simp only [List.set_cons_zero, List.map_cons, List.sum_cons]
      omega
    | succ n =>
      simp only [List.getElem?_cons_succ] at h
      simp only [List.set_cons_succ, List.map_cons, List.sum_cons]
      have := ih n h
      omega

/-- Any step keeps the sender dropped once it has been dropped. -/
theorem Step.senderClosed_mono {s s' : SysState} (h : Step s s')
    (hsc : s.senderClosed = true) : s'.senderClosed = true := by
  cases h with
  | submit j hf => rw [hsc] at hf; cases hf
  | closeSender => rfl
  | acquire k hl hp => exact hsc
  | recvOk k j rest hl hp hq => exact hsc
  | recvErr k hl hp hq h2 => exact hsc
  | finish k j hp => exact hsc

/-- Any step preserves the converse lock invariant: a worker in its locked
phase is the lock holder. -/
theorem Step.locked_has_holder {s s' : SysState} (h : Step s s')
    (hi : ∀ i, s.phases[i]? = some WorkerPhase.locked → s.lockHolder = some i) :
    ∀ i, s'.phases[i]? = some WorkerPhase.locked → s'.lockHolder = some i := by
  cases h with
  | submit j hsc => exact hi
  | closeSender => exact hi
  | acquire k hl hp =>
    intro m hm
    rcases eq_or_ne k m with rfl | hkm
    · rfl
    · rw [List.getElem?_set_ne hkm] at hm
      have := hi m hm
      rw [hl] at this
      cases this
  | recvOk k j rest hl hp hq =>
    intro m hm
    rcases eq_or_ne k m with rfl | hkm
    · rw [List.getElem?_set_self (List.getElem?_eq_some.mp hp).1] at hm
      simp at hm
    · rw [List.getElem?_set_ne hkm] at hm
      have := hi m hm
      rw [hl] at this
      obtain rfl := Option.some.inj this
      exact absurd rfl hkm
  | recvErr k hl hp hq hsc =>
    intro m hm
    rcases eq_or_ne k m with rfl | hkm
    · rw [List.getElem?_set_self (List.getElem?_eq_some.mp hp).1] at hm
      simp at hm
    · rw [List.getElem?_set_ne hkm] at hm
      have := hi m hm
      rw [hl] at this
      obtain rfl := Option.some.inj this
      exact absurd rfl hkm
  | finish k j hp =>
    intro m hm
    rcases eq_or_ne k m with rfl | hkm
    · rw [List.getElem?_set_self (List.getElem?_eq_some.mp hp).1] at hm
      simp at hm
    · rw [List.getElem?_set_ne hkm] at hm
      exact hi m hm

/-- In every reachable state a worker in its locked phase is the lock
holder. -/
theorem reachable_locked_holder {size : Nat} {s : SysState}
    (h : Reachable (initState size) s) :
    ∀ i, s.phases[i]? = some WorkerPhase.locked → s.lockHolder = some i := by
  induction h with
  | refl =>
    intro i hi
    simp only [initState] at hi
    cases List.eq_of_mem_replicate (List.getElem?_mem hi)
  | tail _ hstep ih => exact hstep.locked_has_holder ih

/-- From any invariant-satisfying state with the sender dropped in which some
worker has not yet terminated, a step exists that strictly decreases the
termination measure. -/
theorem progress_step (s : SysState)
    (hinv : s.Inv)
    (hl5 : ∀ i, s.phases[i]? = some WorkerPhase.locked → s.lockHolder = some i)
    (hsc : s.senderClosed = true)
    (hnot : ¬ ∀ q ∈ s.phases, q = WorkerPhase.terminated) :
    ∃ s1, Step s s1 ∧ s1.measure < s.measure := by
  push_neg at hnot
  obtain ⟨q, hqmem, hqne⟩ := hnot
  obtain ⟨i, hqi⟩ := List.getElem?_of_mem hqmem
  cases q with
  | terminated => exact absurd rfl hqne
  | running j =>
    refine ⟨_, Step.finish s i j hqi, ?_⟩
    have hsum := sum_map_set s.phases i (WorkerPhase.running j)
      WorkerPhase.idle phaseWeight hqi
    simp only [phaseWeight] at hsum
    dsimp only [SysState.measure]
    omega
  | idle =>
    cases hlh : s.lockHolder with
    | none =>
      refine ⟨_, Step.acquire s i hlh hqi, ?_⟩
      have hsum := sum_map_set s.phases i WorkerPhase.idle
        WorkerPhase.locked phaseWeight hqi
      simp only [phaseWeight] at hsum
      dsimp only [SysState.measure]
      omega
    | some k =>
      have hpk := hinv.2.2.1 k hlh
      cases hq : s.queue with
      | cons j rest =>
        refine ⟨_, Step.recvOk s k j rest hlh hpk hq, ?_⟩
        have hsum := sum_map_set s.phases k WorkerPhase.locked
          (WorkerPhase.running j) phaseWeight hpk
        simp only [phaseWeight] at hsum
        dsimp only [SysState.measure]
        rw [hq]
        simp only [List.length_cons]
        omega
      | nil =>
        refine ⟨_, Step.recvErr s k hlh hpk hq hsc, ?_⟩
        have hsum := sum_map_set s.phases k WorkerPhase.locked
          WorkerPhase.terminated phaseWeight hpk
        simp only [phaseWeight] at hsum
        dsimp only [SysState.measure]
        omega
  | locked =>
    have hlh := hl5 i hqi
    cases hq : s.queue with
    | cons j rest =>
      refine ⟨_, Step.recvOk s i j rest hlh hqi hq, ?_⟩
      have hsum := sum_map_set s.phases i WorkerPhase.locked
        (WorkerPhase.running j) phaseWeight hqi
      simp only [phaseWeight] at hsum
      dsimp only [SysState.measure]
      rw [hq]
      simp only [List.length_cons]
      omega
    | nil =>
      refine ⟨_, Step.recvErr s i hlh hqi hq hsc, ?_⟩
      have hsum := sum_map_set s.phases i WorkerPhase.locked
        WorkerPhase.terminated phaseWeight hqi
      simp only [phaseWeight] at hsum
      dsimp only [SysState.measure]
      omega

/-- From any invariant-satisfying state with the sender dropped, some
interleaving drives every worker to termination. -/
theorem drain (n : Nat) : ∀ s : SysState, s.measure ≤ n → s.Inv →
    (∀ i, s.phases[i]? = some WorkerPhase.locked → s.lockHolder = some i) →
    s.senderClosed = true →
    ∃ s2, Reachable s s2 ∧ ∀ q ∈ s2.phases, q = WorkerPhase.terminated := by
  induction n with
  | zero =>
    intro s hm hinv hl5 hsc
    by_cases hall : ∀ q ∈ s.phases, q = WorkerPhase.terminated
    · exact ⟨s, .refl, hall⟩
    · obtain ⟨s1, _, hlt⟩ := progress_step s hinv hl5 hsc hall
      omega
  | succ n ih =>
    intro s hm hinv hl5 hsc
    by_cases hall : ∀ q ∈ s.phases, q = WorkerPhase.terminated
    · exact ⟨s, .refl, hall⟩
    · obtain ⟨s1, hstep, hlt⟩ := progress_step s hinv hl5 hsc hall
      obtain ⟨s2, hr2, hall2⟩ := ih s1 (by omega) (hstep.preserves_inv hinv)
        (hstep.locked_has_holder hl5) (hstep.senderClosed_mono hsc)
      exact ⟨s2, .head hstep hr2, hall2⟩

/-- C1: `build 0` returns a `CreationError` (with the source's message), so no
pool — partial or otherwise — is ever produced for size zero (worker threads
are spawned only inside a successfully returned pool, so none are spawned);
and for every positive size, `build` does not return a `CreationError` (or any
other error). -/
theorem build_zero_fails_pos_succeeds :
    ThreadPool.build 0 = .error (.CreationError "Pool size must be greater than zero") ∧
    (∀ p, ThreadPool.build 0 ≠ .ok p) ∧
    (∀ size, 0 < size → ∀ e, ThreadPool.build size ≠ .error e) := by
  refine ⟨rfl, ?_, ?_⟩
  · intro p h
    simp [ThreadPool.build] at h
  · intro size hs e h
    simp [ThreadPool.build, Nat.pos_iff_ne_zero.mp hs] at h

/-- Witness for C1 at size 3. -/
theorem build_zero_fails_pos_succeeds_witness :
    0 < 3 ∧ ∀ e, ThreadPool.build 3 ≠ .error e :=
  ⟨by decide, build_zero_fails_pos_succeeds.2.2 3 (by decide)⟩

/-- C2: for every positive size, `build` succeeds with a pool owning exactly
`size` workers whose ids are `0, 1, ..., size-1` in order, each spawned eagerly
(its thread handle present from construction) and each holding the one shared
receiving end created by `build`. -/
theorem build_pos_yields_size_workers (size : Nat) (hs : 0 < size) :
    ∃ p, ThreadPool.build size = .ok p ∧
      p.workers.length = size ∧
      p.workers.map Worker.id = List.range size ∧
      (∀ w ∈ p.workers, w.thread = some ()) ∧
      (∀ w ∈ p.workers, ∀ w2 ∈ p.workers, w.receiver = w2.receiver) := by
  refine ⟨{ workers := (List.range size).map (fun id => Worker.new id 0),
            sender := some () }, ?_, ?_, ?_, ?_, ?_⟩
  · simp [ThreadPool.build, Nat.pos_iff_ne_zero.mp hs]
  · simp
  · rw [List.map_map]
    exact List.map_id _
  · intro w hw
    simp only [List.mem_map] at hw
    obtain ⟨i, _, rfl⟩ := hw
    rfl
  · intro w hw w2 hw2
    simp only [List.mem_map] at hw hw2
    obtain ⟨i, _, rfl⟩ := hw
    obtain ⟨i2, _, rfl⟩ := hw2
    rfl

/-- Witness for C2 at size 2. -/
theorem build_pos_yields_size_workers_witness :
    ∃ p, ThreadPool.build 2 = .ok p ∧
      p.workers.length = 2 ∧
      p.workers.map Worker.id = List.range 2 ∧
      (∀ w ∈ p.workers, w.thread = some ()) ∧
      (∀ w ∈ p.workers, ∀ w2 ∈ p.workers, w.receiver = w2.receiver) :=
  build_pos_yields_size_workers 2 (by decide)

/-- C3: on a pool that still holds its sender, `execute` fails exactly when the
receiving side of the channel has been shut down, and then with a `SendError`
(carrying the channel's "sending on a closed channel" text); when it fails no
new channel state is produced, so the job was never enqueued — hence never
executed — and is dropped; when the receiver is alive it succeeds with no value
beyond the channel now holding the job at the back of the queue. -/
theorem execute_fails_iff_receiver_closed (p : ThreadPool) (ch : Channel) (j : Nat)
    (hs : p.sender = some ()) :
    (p.execute ch j = .error (.SendError "sending on a closed channel") ↔
      ch.receiverClosed) ∧
    (¬ ch.receiverClosed → p.execute ch j = .ok { ch with queue := ch.queue ++ [j] }) ∧
    (ch.receiverClosed → ∀ ch2, p.execute ch j ≠ .ok ch2) ∧
    (∀ e, p.execute ch j = .error e → ∃ m, e = .SendError m) := by
  cases hc : ch.receiverClosed <;>
    simp_all [ThreadPool.execute, Channel.send, hs]

/-- Witness for C3: a closed receiver rejects job 5, an open one accepts it. -/
theorem execute_fails_iff_receiver_closed_witness :
    (ThreadPool.execute ⟨[], some ()⟩ ⟨[], true⟩ 5 =
      .error (.SendError "sending on a closed channel") ↔ true) ∧
    (¬ true → ThreadPool.execute ⟨[], some ()⟩ ⟨[], true⟩ 5 =
      .ok { Channel.mk [] true with queue := [] ++ [5] }) ∧
    (true → ∀ ch2, ThreadPool.execute ⟨[], some ()⟩ ⟨[], true⟩ 5 ≠ .ok ch2) ∧
    (∀ e, ThreadPool.execute ⟨[], some ()⟩ ⟨[], true⟩ 5 = .error e →
      ∃ m, e = .SendError m) :=
  execute_fails_iff_receiver_closed ⟨[], some ()⟩ ⟨[], true⟩ 5 rfl

/-- C10: `execute` is total over both states of the optional sender: it returns
the `SendError` with message "ThreadPool sender is missing" exactly when the
sending handle is absent (it never panics there, thanks to `ok_or_else`), and
with the handle present any failure is the channel's own send error instead. -/
theorem execute_missing_sender (p : ThreadPool) (ch : Channel) (j : Nat) :
    p.execute ch j = .error (.SendError "ThreadPool sender is missing") ↔
      p.sender = none := by
  cases hp : p.sender with
  | none => simp [ThreadPool.execute, hp]
  | some u =>
    cases hc : ch.receiverClosed <;>
      simp_all [ThreadPool.execute, Channel.send, hp]

/-- Destructor for a successful `build`: the size was nonzero and the pool is
exactly the one constructed in the success branch. -/
theorem build_ok_elim {size : Nat} {p : ThreadPool}
    (hb : ThreadPool.build size = .ok p) :
    size ≠ 0 ∧
      p = { workers := (List.range size).map (fun id => Worker.new id 0),
            sender := some () } := by
  by_cases h0 : size = 0
  · subst h0
    simp [ThreadPool.build] at hb
  · rw [ThreadPool.build, if_neg h0] at hb
    exact ⟨h0, ((Except.ok.injEq _ _).mp hb).symm⟩

/-- Workers spawned by `build` all hold live thread handles, so the teardown
trace joins exactly those workers, in order. -/
theorem filterMap_join_new (l : List Nat) :
    (l.map (fun id => Worker.new id 0)).filterMap
        (fun w => w.thread.map (fun _ => DropEvent.join w.id))
      = l.map DropEvent.join := by
  induction l with
  | nil => rfl
  | cons x xs ih =>
    have hhead : (List.map (fun id => Worker.new id 0) (x :: xs)).filterMap
          (fun w => w.thread.map (fun _ => DropEvent.join w.id))
        = DropEvent.join x :: (List.map (fun id => Worker.new id 0) xs).filterMap
          (fun w => w.thread.map (fun _ => DropEvent.join w.id)) := rfl
    rw [hhead, ih, List.map_cons]

/-- C4: in every reachable state of a pool with at least one worker in which
every worker has terminated — what teardown's joins wait for — the execution
log is a permutation of the submission log: each successfully submitted job
was executed exactly once by exactly one worker, none twice and none lost, so
N submitted counter-increments leave the counter at exactly N (the log lengths
agree) and the queue has drained; moreover from any reachable state in which
the sender has been dropped, some interleaving does drive every worker to
termination, so the jobs are eventually executed. -/
theorem jobs_executed_exactly_once :
    (∀ size s, 0 < size → Reachable (initState size) s →
      (∀ q ∈ s.phases, q = WorkerPhase.terminated) →
      s.executed.Perm s.submitted ∧ s.executed.length = s.submitted.length ∧
        s.queue = []) ∧
    (∀ size s, Reachable (initState size) s → s.senderClosed = true →
      ∃ s2, Reachable s s2 ∧ ∀ q ∈ s2.phases, q = WorkerPhase.terminated) := by
  constructor
  · intro size s hs hr hdone
    obtain ⟨hcount, hterm, hlock, hempty⟩ := reachable_inv hr
    have hlen := reachable_phases_length hr
    have hne : s.phases ≠ [] := by
      intro h0
      rw [h0, List.length_nil] at hlen
      omega
    have hq := hempty hne hdone
    have hperm : s.executed.Perm s.submitted := by
      rw [List.perm_iff_count]
      intro j
      have hcj := hcount j
      have hf : s.phases.countP (fun q => decide (q = WorkerPhase.running j)) = 0 := by
        rw [List.countP_eq_zero]
        intro a ha
        rw [hdone a ha]
        simp
      dsimp only [SysState.inFlight] at hcj
      rw [hq, List.count_nil] at hcj
      omega
    exact ⟨hperm, hperm.length_eq, hq⟩
  · intro size s hr hsc
    exact drain s.measure s (Nat.le_refl _) (reachable_inv hr)
      (reachable_locked_holder hr) hsc

/-- Witness for C4: a one-worker pool that received and ran job 7, then
terminated; and the drained continuation of a freshly closed one-worker
pool. -/
theorem jobs_executed_exactly_once_witness :
    (([7] : List Nat).Perm [7] ∧ ([7] : List Nat).length = ([7] : List Nat).length ∧
      ([] : List Nat) = []) ∧
    (∃ s2, Reachable ⟨[], true, none, [WorkerPhase.idle], [], []⟩ s2 ∧
      ∀ q ∈ s2.phases, q = WorkerPhase.terminated) := by
  constructor
  · have h1 : Step (initState 1) ⟨[7], false, none, [WorkerPhase.idle], [7], []⟩ :=
      Step.submit _ 7 rfl
    have h2 : Step ⟨[7], false, none, [WorkerPhase.idle], [7], []⟩
        ⟨[7], true, none, [WorkerPhase.idle], [7], []⟩ := Step.closeSender _
    have h3 : Step ⟨[7], true, none, [WorkerPhase.idle], [7], []⟩
        ⟨[7], true, some 0, [WorkerPhase.locked], [7], []⟩ := Step.acquire _ 0 rfl rfl
    have h4 : Step ⟨[7], true, some 0, [WorkerPhase.locked], [7], []⟩
        ⟨[], true, none, [WorkerPhase.running 7], [7], []⟩ :=
      Step.recvOk _ 0 7 [] rfl rfl rfl
    have h5 : Step ⟨[], true, none, [WorkerPhase.running 7], [7], []⟩
        ⟨[], true, none, [WorkerPhase.idle], [7], [7]⟩ := Step.finish _ 0 7 rfl
    have h6 : Step ⟨[], true, none, [WorkerPhase.idle], [7], [7]⟩
        ⟨[], true, some 0, [WorkerPhase.locked], [7], [7]⟩ := Step.acquire _ 0 rfl rfl
    have h7 : Step ⟨[], true, some 0, [WorkerPhase.locked], [7], [7]⟩
        ⟨[], true, none, [WorkerPhase.terminated], [7], [7]⟩ :=
      Step.recvErr _ 0 rfl rfl rfl rfl
    exact jobs_executed_exactly_once.1 1 ⟨[], true, none, [WorkerPhase.terminated], [7], [7]⟩
      (by decide)
      (.head h1 (.head h2 (.head h3 (.head h4 (.head h5 (.head h6 (.head h7 .refl)))))))
      (by decide)
  · have h1 : Step (initState 1) ⟨[], true, none, [WorkerPhase.idle], [], []⟩ :=
      Step.closeSender _
    exact jobs_executed_exactly_once.2 1 ⟨[], true, none, [WorkerPhase.idle], [], []⟩
      (.head h1 .refl) rfl

/-- C5: teardown of a built pool first closes (drops) the sending end and only
then joins the workers: the teardown trace is exactly the close followed by
one join per worker in worker order `0, ..., size-1`; the close is the first
action of the trace; and every worker whose thread handle is held has its join
in the trace, so the destroying context does not return before each started
worker thread has been joined. -/
theorem drop_closes_sender_then_joins (size : Nat) (p : ThreadPool)
    (hb : ThreadPool.build size = .ok p) :
    p.dropEvents = DropEvent.closeSender :: (List.range size).map DropEvent.join ∧
    p.dropEvents.head? = some DropEvent.closeSender ∧
    (∀ w ∈ p.workers, w.thread.isSome → DropEvent.join w.id ∈ p.dropEvents) := by
  obtain ⟨h0, rfl⟩ := build_ok_elim hb
  refine ⟨?_, rfl, ?_⟩
  · rw [ThreadPool.dropEvents]
    rw [filterMap_join_new]
  · intro w hw hthread
    rw [ThreadPool.dropEvents]
    refine List.mem_cons_of_mem _ (List.mem_filterMap.mpr ⟨w, hw, ?_⟩)
    obtain ⟨u, hu⟩ := Option.isSome_iff_exists.mp hthread
    rw [hu]
    rfl

/-- Witness for C5 at size 1. -/
theorem drop_closes_sender_then_joins_witness :
    (ThreadPool.mk [Worker.new 0 0] (some ())).dropEvents
        = DropEvent.closeSender :: (List.range 1).map DropEvent.join ∧
      (ThreadPool.mk [Worker.new 0 0] (some ())).dropEvents.head?
        = some DropEvent.closeSender ∧
      (∀ w ∈ (ThreadPool.mk [Worker.new 0 0] (some ())).workers,
        w.thread.isSome →
          DropEvent.join w.id ∈ (ThreadPool.mk [Worker.new 0 0] (some ())).dropEvents) :=
  drop_closes_sender_then_joins 1 ⟨[Worker.new 0 0], some ()⟩ rfl

/-- C6: if any worker whose thread handle is held panicked, the teardown join
loop aborts with the explicit failure message of the source's `.expect` rather
than returning success or silently skipping the error; and it aborts at the
panicked worker without continuing past it — whatever entries follow, the
result is already the failure. -/
theorem teardown_aborts_on_panicked_join :
    (∀ entries : List (Option Bool), some true ∈ entries →
      dropJoinLoop entries = .error "Thread failed to join") ∧
    (∀ rest : List (Option Bool),
      dropJoinLoop (some true :: rest) = .error "Thread failed to join") := by
  have hmain : ∀ entries : List (Option Bool), some true ∈ entries →
      dropJoinLoop entries = .error "Thread failed to join" := by
    intro entries hmem
    induction entries with
    | nil => cases hmem
    | cons a rest ih =>
      rcases List.mem_cons.mp hmem with ha | ha
      · rw [← ha]
        rfl
      · cases a with
        | none => exact ih ha
        | some b =>
          cases b with
          | false => exact ih ha
          | true => rfl
  exact ⟨hmain, fun rest => hmain _ (List.mem_cons_self _ _)⟩

/-- Witness for C6: a run where the second worker panicked, and one where the
panicked worker is followed by further entries. -/
theorem teardown_aborts_on_panicked_join_witness :
    dropJoinLoop [some false, some true] = .error "Thread failed to join" ∧
    dropJoinLoop (some true :: [none]) = .error "Thread failed to join" :=
  ⟨teardown_aborts_on_panicked_join.1 [some false, some true] (by decide),
   teardown_aborts_on_panicked_join.2 [none]⟩

/-- C7: in every reachable state of the running pool, a worker that is
executing a claimed job does not hold the lock on the shared receiving end:
the mutex guard lives only for the duration of the claim-next-job statement
and is dropped before the job is invoked. -/
theorem running_worker_holds_no_lock (size : Nat) (s : SysState)
    (hr : Reachable (initState size) s) (i j : Nat)
    (hp : s.phases[i]? = some (WorkerPhase.running j)) :
    s.lockHolder ≠ some i := by
  intro hl
  have hlocked := (reachable_inv hr).2.2.1 i hl
  rw [hp] at hlocked
  simp at hlocked

/-- Witness for C7: a worker running job 5 in a reachable one-worker state
does not hold the lock. -/
theorem running_worker_holds_no_lock_witness :
    (SysState.mk [] false none [WorkerPhase.running 5] [5] []).lockHolder ≠ some 0 := by
  have h1 : Step (initState 1) ⟨[5], false, none, [WorkerPhase.idle], [5], []⟩ :=
    Step.submit _ 5 rfl
  have h2 : Step ⟨[5], false, none, [WorkerPhase.idle], [5], []⟩
      ⟨[5], false, some 0, [WorkerPhase.locked], [5], []⟩ := Step.acquire _ 0 rfl rfl
  have h3 : Step ⟨[5], false, some 0, [WorkerPhase.locked], [5], []⟩
      ⟨[], false, none, [WorkerPhase.running 5], [5], []⟩ :=
    Step.recvOk _ 0 5 [] rfl rfl rfl
  exact running_worker_holds_no_lock 1 _ (.head h1 (.head h2 (.head h3 .refl))) 0 5 rfl

/-- C8: a step that moves worker `i` out of its receive (the `locked` phase)
either claims the job at the head of the queue, moving the worker to running
exactly that job, or — precisely when the queue is empty and the sender has
been dropped — observes the channel closed and moves the worker to
`terminated`; a step that moves a worker out of running job `j` completes that
job, appending it to the execution log and returning the worker to `idle`
before any further receive attempt; and a terminated worker's phase stays
`terminated` under every step, so its thread has exited the loop for good. -/
theorem worker_receive_dichotomy :
    (∀ s s' : SysState, ∀ i : Nat, Step s s' →
      s.phases[i]? = some WorkerPhase.locked →
      s'.phases[i]? ≠ some WorkerPhase.locked →
      (∃ (j : Nat) (rest : List Nat), s.queue = j :: rest ∧
        s'.phases[i]? = some (WorkerPhase.running j) ∧ s'.queue = rest) ∨
      (s.queue = [] ∧ s.senderClosed = true ∧
        s'.phases[i]? = some WorkerPhase.terminated)) ∧
    (∀ s s' : SysState, ∀ i j : Nat, Step s s' →
      s.phases[i]? = some (WorkerPhase.running j) →
      s'.phases[i]? ≠ some (WorkerPhase.running j) →
      s'.phases[i]? = some WorkerPhase.idle ∧ s'.executed = s.executed ++ [j]) ∧
    (∀ s s' : SysState, ∀ i : Nat, Step s s' →
      s.phases[i]? = some WorkerPhase.terminated →
      s'.phases[i]? = some WorkerPhase.terminated) := by
  refine ⟨?_, ?_, ?_⟩
  · intro s s' i hstep hploc hne
    cases hstep with
    | submit j hsc => exact absurd hploc hne
    | closeSender => exact absurd hploc hne
    | acquire k hl hp =>
      have hki : k ≠ i := by
        rintro rfl
        rw [hploc] at hp
        simp at hp
      exact absurd ((List.getElem?_set_ne hki).trans hploc) hne
    | recvOk k j rest hl hp hq =>
      rcases eq_or_ne k i with rfl | hki
      · exact Or.inl ⟨j, rest, hq,
          List.getElem?_set_self (List.getElem?_eq_some.mp hp).1, rfl⟩
      · exact absurd ((List.getElem?_set_ne hki).trans hploc) hne
    | recvErr k hl hp hq hsc =>
      rcases eq_or_ne k i with rfl | hki
      · exact Or.inr ⟨hq, hsc,
          List.getElem?_set_self (List.getElem?_eq_some.mp hp).1⟩
      · exact absurd ((List.getElem?_set_ne hki).trans hploc) hne
    | finish k j hp =>
      have hki : k ≠ i := by
        rintro rfl
        rw [hploc] at hp
        simp at hp
      exact absurd ((List.getElem?_set_ne hki).trans hploc) hne
  · intro s s' i j hstep hprun hne
    cases hstep with
    | submit j2 hsc => exact absurd hprun hne
    | closeSender => exact absurd hprun hne
    | acquire k hl hp =>
      have hki : k ≠ i := by
        rintro rfl
        rw [hprun] at hp
        simp at hp
      exact absurd ((List.getElem?_set_ne hki).trans hprun) hne
    | recvOk k j2 rest hl hp hq =>
      have hki : k ≠ i := by
        rintro rfl
        rw [hprun] at hp
        simp at hp
      exact absurd ((List.getElem?_set_ne hki).trans hprun) hne
    | recvErr k hl hp hq hsc =>
      have hki : k ≠ i := by
        rintro rfl
        rw [hprun] at hp
        simp at hp
      exact absurd ((List.getElem?_set_ne hki).trans hprun) hne
    | finish k j2 hp =>
      rcases eq_or_ne k i with rfl | hki
      · rw [hprun] at hp
        have hj : j = j2 := by
          have := Option.some.inj hp
          cases this
          rfl
        subst hj
        exact ⟨List.getElem?_set_self (List.getElem?_eq_some.mp hprun).1, rfl⟩
      · exact absurd ((List.getElem?_set_ne hki).trans hprun) hne
  · intro s s' i hstep hpterm
    cases hstep with
    | submit j hsc => exact hpterm
    | closeSender => exact hpterm
    | acquire k hl hp =>
      have hki : k ≠ i := by
        rintro rfl
        rw [hpterm] at hp
        simp at hp
      exact (List.getElem?_set_ne hki).trans hpterm
    | recvOk k j rest hl hp hq =>
      have hki : k ≠ i := by
        rintro rfl
        rw [hpterm] at hp
        simp at hp
      exact (List.getElem?_set_ne hki).trans hpterm
    | recvErr k hl hp hq hsc =>
      have hki : k ≠ i := by
        rintro rfl
        rw [hpterm] at hp
        simp at hp
      exact (List.getElem?_set_ne hki).trans hpterm
    | finish k j hp =>
      have hki : k ≠ i := by
        rintro rfl
        rw [hpterm] at hp
        simp at hp
      exact (List.getElem?_set_ne hki).trans hpterm

/-- Witness for C8: a receive that claims job 5, a job 9 that runs to
completion, and a terminated worker surviving a sender close. -/
theorem worker_receive_dichotomy_witness :
    ((∃ (j : Nat) (rest : List Nat), ([5] : List Nat) = j :: rest ∧
        ([WorkerPhase.running 5] : List WorkerPhase)[0]?
          = some (WorkerPhase.running j) ∧ ([] : List Nat) = rest) ∨
      (([5] : List Nat) = [] ∧ true = true ∧
        ([WorkerPhase.running 5] : List WorkerPhase)[0]?
          = some WorkerPhase.terminated)) ∧
    (([WorkerPhase.idle] : List WorkerPhase)[0]? = some WorkerPhase.idle ∧
      ([9] : List Nat) = [] ++ [9]) ∧
    ([WorkerPhase.terminated] : List WorkerPhase)[0]?
      = some WorkerPhase.terminated := by
  refine ⟨?_, ?_, ?_⟩
  · have hstep : Step ⟨[5], true, some 0, [WorkerPhase.locked], [5], []⟩
        ⟨[], true, none, [WorkerPhase.running 5], [5], []⟩ :=
      Step.recvOk _ 0 5 [] rfl rfl rfl
    exact worker_receive_dichotomy.1 _ _ 0 hstep rfl (by decide)
  · have hstep : Step ⟨[], true, none, [WorkerPhase.running 9], [9], []⟩
        ⟨[], true, none, [WorkerPhase.idle], [9], [9]⟩ := Step.finish _ 0 9 rfl
    exact worker_receive_dichotomy.2.1 _ _ 0 9 hstep rfl (by decide)
  · have hstep : Step ⟨[], false, none, [WorkerPhase.terminated], [], []⟩
        ⟨[], true, none, [WorkerPhase.terminated], [], []⟩ := Step.closeSender _
    exact worker_receive_dichotomy.2.2 _ _ 0 hstep rfl

/-- C9: a built pool starts with exactly `size` workers — never zero — and the
sending handle present; no step of the running system changes the number of
worker threads, and every reachable state keeps exactly `size` of them; taking
the sender, the first action of teardown, leaves the handle absent and makes
every subsequent `execute` fail with the missing-sender error, so no new job
can be enqueued once shutdown has begun; and once the sender has been dropped
no step enlarges the submitted log and the sender never comes back. -/
theorem pool_invariants_lifetime :
    (∀ size p, ThreadPool.build size = .ok p →
      p.workers.length = size ∧ size ≠ 0 ∧ p.sender = some ()) ∧
    (∀ s s' : SysState, Step s s' → s'.phases.length = s.phases.length) ∧
    (∀ size : Nat, ∀ s : SysState, Reachable (initState size) s →
      s.phases.length = size) ∧
    (∀ p : ThreadPool, p.takeSender.sender = none ∧ ∀ ch j,
      p.takeSender.execute ch j
        = .error (.SendError "ThreadPool sender is missing")) ∧
    (∀ s s' : SysState, s.senderClosed = true → Step s s' →
      s'.submitted = s.submitted ∧ s'.senderClosed = true) := by
  refine ⟨?_, ?_, ?_, ?_, ?_⟩
  · intro size p hb
    obtain ⟨h0, rfl⟩ := build_ok_elim hb
    exact ⟨by simp, h0, rfl⟩
  · intro s s' h
    exact h.phases_length
  · intro size s h
    exact reachable_phases_length h
  · intro p
    exact ⟨rfl, fun ch j => rfl⟩
  · intro s s' hsc h
    cases h with
    | submit j hf =>
      rw [hsc] at hf
      cases hf
    | closeSender => exact ⟨rfl, rfl⟩
    | acquire k hl hp => exact ⟨rfl, hsc⟩
    | recvOk k j rest hl hp hq => exact ⟨rfl, hsc⟩
    | recvErr k hl hp hq hsc2 => exact ⟨rfl, hsc⟩
    | finish k j hp => exact ⟨rfl, hsc⟩

/-- Witness for C9 at size 2, with a close step and a post-close step. -/
theorem pool_invariants_lifetime_witness :
    (([Worker.new 0 0, Worker.new 1 0] : List Worker).length = 2 ∧ 2 ≠ 0 ∧
      (some () : Option Unit) = some ()) ∧
    (([WorkerPhase.idle] : List WorkerPhase).length
      = ([WorkerPhase.idle] : List WorkerPhase).length) ∧
    ((initState 3).phases.length = 3) ∧
    ((ThreadPool.mk [] (some ())).takeSender.sender = none ∧ ∀ ch j,
      (ThreadPool.mk [] (some ())).takeSender.execute ch j
        = .error (.SendError "ThreadPool sender is missing")) ∧
    (([] : List Nat) = [] ∧ true = true) := by
  refine ⟨?_, ?_, ?_, ?_, ?_⟩
  · exact pool_invariants_lifetime.1 2 ⟨[Worker.new 0 0, Worker.new 1 0], some ()⟩ rfl
  · exact pool_invariants_lifetime.2.1 ⟨[], true, none, [WorkerPhase.idle], [], []⟩
      ⟨[], true, none, [WorkerPhase.idle], [], []⟩ (Step.closeSender _)
  · exact pool_invariants_lifetime.2.2.1 3 (initState 3) .refl
  · exact pool_invariants_lifetime.2.2.2.1 ⟨[], some ()⟩
  · exact pool_invariants_lifetime.2.2.2.2 ⟨[], true, none, [], [], []⟩
      ⟨[], true, none, [], [], []⟩ rfl (Step.closeSender _)
